import Mathlib

/-!
# Verification of the KRY2 key-exchange core

A shallow embedding of the elliptic-curve and Diffie-Hellman arithmetic of the
repository (src/ec.py, src/client.py, src/server.py), together with proofs of
the specified properties.

Python integers are modelled as `ℤ`.  Python's `%` with a positive modulus
returns a value in `[0, modulus)`, exactly like Lean's `Int.emod` (the `%` of
`ℤ`), so `%` translates literally.  Python's `None`-as-infinity point
representation is modelled as `Option (ℤ × ℤ)`.  Python code that can raise an
exception is modelled in an `Option`/`Except` result layer.
-/

/-- A curve point as represented in src/ec.py: `None` is the point at
infinity, otherwise a pair of integers. -/
abbrev EPoint := Option (ℤ × ℤ)

/-- The extended Euclidean algorithm (the same recursion as `Nat.xgcdAux`),
written with an explicit structural fuel so that it reduces inside the kernel;
`xgcdFuel fuel r s t u s' t'` equals `Nat.xgcdAux r s t u s' t'` whenever
`r ≤ fuel` (`xgcdFuel_eq`). -/
def xgcdFuel : ℕ → ℕ → ℤ → ℤ → ℕ → ℤ → ℤ → ℕ × ℤ × ℤ
  | _, 0, _, _, u, s', t' => (u, s', t')
  | 0, _ + 1, _, _, u, s', t' => (u, s', t')
  | fuel + 1, r + 1, s, t, u, s', t' =>
    let q := u / (r + 1)
    xgcdFuel fuel (u % (r + 1)) (s' - q * s) (t' - q * t) (r + 1) s t

/-- Model of Python's three-argument `pow(x, -1, m)` as used in
`Curve.point_add` (src/ec.py lines 60 and 70): it returns the unique inverse
of `x` modulo `m` lying in `[0, m)` when `x` is invertible modulo `m`, and
raises `ValueError` (modelled as `none`) otherwise.  The candidate is the
Bézout coefficient of `x mod m` and `m` from the extended Euclidean algorithm
(as in CPython), reduced into `[0, m)`, and it is validated by the defining
congruence `x * y ≡ 1 (mod m)`, which holds exactly when `x` is invertible
modulo `m`. -/
def modInverse (x m : ℤ) : Option ℤ :=
  let a : ℕ := (x % m).toNat
  let y : ℤ := (xgcdFuel a a 1 0 m.toNat 0 1).2.1 % m
  if x * y % m = 1 % m then some y else none

/-- Model of Python's three-argument `pow(b, e, m)` for a non-negative
exponent: `b ^ e mod m`, reduced into `[0, m)` for `m > 0`. -/
def pypow (b : ℤ) (e : ℕ) (m : ℤ) : ℤ :=
  b ^ e % m

/-- The `Curve` class of src/ec.py: field prime `p`, coefficients `a`, `b`,
base point `G`, order `n`, cofactor `h`. -/
structure Curve where
  p : ℤ
  a : ℤ
  b : ℤ
  G : ℤ × ℤ
  n : ℤ
  h : ℤ

/-- `Curve.point_add` (src/ec.py lines 34-77), translated clause by clause.
The outer `Option` layer is the exception layer: `none` means the Python code
raised (a failed modular inverse); `some r` means it returned the point `r`.

Source:
```
if p is None: return q
if q is None: return p
if (px == qx) and (py != qy or py == 0): return None
if (p == q):
    s1 = (3*pow(px, 2, self.p) + self.a) % self.p
    s2 = pow(2*py, -1, self.p)
    s = (s1 * s2) % self.p
    rx = (pow(s, 2, self.p) - 2*px) % self.p
    ry = (s*(px - rx) - py) % self.p
    return (rx, ry)
else:
    s1 = (qy - py) % self.p
    s2 = pow(qx - px, -1, self.p)
    s = (s1 * s2) % self.p
    rx = (pow(s, 2, self.p) - (px + qx)) % self.p
    ry = (s*(px - rx) - py) % self.p
    return (rx, ry)
```
-/
def Curve.point_add (c : Curve) (p q : EPoint) : Option EPoint :=
  match p, q with
  | none, q => some q
  | p, none => some p
  | some (px, py), some (qx, qy) =>
    if px = qx ∧ (py ≠ qy ∨ py = 0) then
      some none
    else if px = qx ∧ py = qy then
      let s1 := (3 * (px ^ 2 % c.p) + c.a) % c.p
      match modInverse (2 * py) c.p with
      | none => none
      | some s2 =>
        let s := s1 * s2 % c.p
        let rx := (s ^ 2 % c.p - 2 * px) % c.p
        let ry := (s * (px - rx) - py) % c.p
        some (some (rx, ry))
    else
      let s1 := (qy - py) % c.p
      match modInverse (qx - px) c.p with
      | none => none
      | some s2 =>
        let s := s1 * s2 % c.p
        let rx := (s ^ 2 % c.p - (px + qx)) % c.p
        let ry := (s * (px - rx) - py) % c.p
        some (some (rx, ry))

/-- The `while k > 0` loop of `Curve.point_mul` (src/ec.py lines 90-99) with
accumulator `r` and current point `a`.  `k & 1` is `k % 2 = 1` and `k >> 1` is
`k / 2` on natural numbers.  The doubling `a = point_add(a, a)` executes on
every iteration, also on the last one, exactly as in the source.  The loop
halves `k` each iteration, so it performs at most `k` iterations; `fuel` is a
structural-recursion bound on the iteration count, instantiated with `k`
itself by `Curve.point_mul`, which always suffices. -/
def Curve.point_mul_loop (c : Curve) : ℕ → ℕ → EPoint → EPoint → Option EPoint
  | _, 0, r, _ => some r
  | 0, _ + 1, r, _ => some r
  | fuel + 1, k + 1, r, a =>
    match (if (k + 1) % 2 = 1 then c.point_add r a else some r) with
    | none => none
    | some r2 =>
      match c.point_add a a with
      | none => none
      | some a2 => c.point_mul_loop fuel ((k + 1) / 2) r2 a2

/-- `Curve.point_mul` (src/ec.py lines 79-99): least-significant-bit-first
double-and-add with the accumulator initialised to `None` (infinity). -/
def Curve.point_mul (c : Curve) (k : ℕ) (p : EPoint) : Option EPoint :=
  c.point_mul_loop k k none p

/-- The `k`-fold group sum of a point under `point_add`:
`iter_add c 0 p = infinity` and `iter_add c (k+1) p = iter_add c k p + p`. -/
def Curve.iter_add (c : Curve) : ℕ → EPoint → Option EPoint
  | 0, _ => some none
  | k + 1, p =>
    match c.iter_add k p with
    | none => none
    | some r => c.point_add r p

/-- The coordinates of an affine point that is well-formed for curve `c`:
both coordinates reduced into `[0, c.p)` (the spec's `FieldElement` is
"always reduced modulo the active prime modulus") and the curve equation
`y² ≡ x³ + a·x + b (mod p)` satisfied. -/
def onCurve (c : Curve) (x y : ℤ) : Prop :=
  0 ≤ x ∧ x < c.p ∧ 0 ≤ y ∧ y < c.p ∧ (y ^ 2 - (x ^ 3 + c.a * x + c.b)) % c.p = 0

instance (c : Curve) (x y : ℤ) : Decidable (onCurve c x y) := by
  unfold onCurve; infer_instance

/-- A well-formed `EPoint` value: infinity, or an on-curve reduced point. -/
def ValidPoint (c : Curve) : EPoint → Prop
  | none => True
  | some (x, y) => onCurve c x y

instance (c : Curve) (p : EPoint) : Decidable (ValidPoint c p) := by
  unfold ValidPoint; cases p with
  | none => exact inferInstance
  | some xy => exact inferInstanceAs (Decidable (onCurve c xy.1 xy.2))

/-- `curve_secp256r1` of src/ec.py lines 127-137. -/
def curve_secp256r1 : Curve where
  p := 0xffffffff00000001000000000000000000000000ffffffffffffffffffffffff
  a := 0xffffffff00000001000000000000000000000000fffffffffffffffffffffffc
  b := 0x5ac635d8aa3a93e7b3ebbd55769886bc651d06b0cc53b0f63bce3c3e27d2604b
  G := (0x6b17d1f2e12c4247f8bce6e563a440f277037d812deb33a0f4a13945d898c296,
        0x4fe342e2fe1a7f9b8ee7eb4a7c0f9e162bce33576b315ececbb6406837bf51f5)
  n := 0xffffffff00000000ffffffffffffffffbce6faada7179e84f3b9cac2fc632551
  h := 0x01

/-- `toy_curve` of src/ec.py lines 139-146. -/
def toy_curve : Curve where
  p := 17
  a := 2
  b := 2
  G := (5, 1)
  n := 19
  h := 1

/-- Failure modes of one exchange, per spec section 7. -/
inductive ExchangeError
  | MalformedWireValue
  | NoInverseError
deriving DecidableEq

/-- Modelled from the spec: `Curve.decode_pub` is called from src/client.py
line 52 and src/server.py line 45 but is absent from src/ec.py (the wire codec
is missing from src/).  Per spec sections 4.3 and 8, decoding reconstructs the
point from its two transmitted coordinates, and a decoded point that does not
lie on the curve aborts the exchange with `MalformedWireValue`. -/
def Curve.decode_pub (c : Curve) (x y : ℤ) : Except ExchangeError EPoint :=
  if onCurve c x y then Except.ok (some (x, y)) else Except.error ExchangeError.MalformedWireValue

/-- The ECDH steps of src/client.py `ecdh` (lines 47-61) and src/server.py
`ecdh` (lines 41-56) from the receipt of the peer bytes onwards: decode the
peer public value (modelled from the spec, see `Curve.decode_pub`), compute
the shared point, and only then produce the three artifact values written to
the `priv`, `pub` and `shared` files.  In the source the three file writes
happen strictly after `point_mul` returns, so an abort while decoding or
multiplying produces no artifacts, which the `Except` layer models. -/
def ecdh_exchange (c : Curve) (priv : ℕ) (pub : EPoint) (wx wy : ℤ) :
    Except ExchangeError (ℕ × EPoint × EPoint) :=
  match c.decode_pub wx wy with
  | Except.error e => Except.error e
  | Except.ok s_pub =>
    match c.point_mul priv s_pub with
    | none => Except.error ExchangeError.NoInverseError
    | some shared => Except.ok (priv, pub, shared)

/-- The DH steps of src/client.py `dh` (lines 63-77) and src/server.py `dh`
(lines 58-72) from the receipt of the peer bytes onwards: the received bytes
are decoded with `int.from_bytes` and used directly — the source performs no
range check whatsoever on the decoded integer — the shared value is
`pow(peer, priv, p)`, and the three artifact values are always produced. -/
def dh_exchange (p g : ℤ) (priv : ℕ) (peer : ℤ) :
    Except ExchangeError (ℕ × ℤ × ℤ) :=
  Except.ok (priv, pypow g priv p, pypow peer priv p)

/-- Modelled from the spec: `dh_hash_pub` lives in common.py, which is absent
from src/.  Per spec section 4 step 4, the digest is SHA-256 over the shortest
hexadecimal representation of the shared value without a radix prefix; this
function models the exact string that is fed to SHA-256 (SHA-256 itself is a
fixed public function, so equal input strings give equal digests). -/
def dh_hash_input (shared : ℕ) : String :=
  ⟨Nat.toDigits 16 shared⟩


/-! ## Bridge to the Mathlib Weierstrass-curve group -/

/-- The short-Weierstrass curve over `ZMod N` with the coefficients of `c`. -/
def mcurve (c : Curve) (N : ℕ) : WeierstrassCurve.Affine (ZMod N) where
  a₁ := 0
  a₂ := 0
  a₃ := 0
  a₄ := (c.a : ZMod N)
  a₆ := (c.b : ZMod N)

/-- The group of nonsingular rational points of `mcurve c N`. -/
abbrev MPoint (c : Curve) (N : ℕ) := WeierstrassCurve.Affine.Point (mcurve c N)

/-- The hypotheses under which the point arithmetic of src/ec.py computes in
the group of `mcurve c N` (the spec's `CurveParams` invariants, spec section
3): the field modulus is an odd prime `N` and the curve is nonsingular. -/
structure GoodCurve (c : Curve) (N : ℕ) : Prop where
  hprime : N.Prime
  hodd : N ≠ 2
  hp : c.p = (N : ℤ)
  hdelta : (mcurve c N).Δ ≠ 0

/-- The representation relation between an `EPoint` of the embedded code and
a nonsingular rational point of the Mathlib curve: infinity corresponds to
the group zero, and a reduced on-curve coordinate pair to the corresponding
affine point. -/
def PtRepr (c : Curve) (N : ℕ) : EPoint → MPoint c N → Prop
  | none, A => A = 0
  | some (x, y), A =>
    onCurve c x y ∧
      ∃ hns : (mcurve c N).Nonsingular (x : ZMod N) (y : ZMod N),
        A = WeierstrassCurve.Affine.Point.some hns

/-- The point negation map of spec section 8:
`negate(p) = (p.x, -p.y mod prime)`. -/
def negate (c : Curve) (pt : ℤ × ℤ) : ℤ × ℤ :=
  (pt.1, (-pt.2) % c.p)


/-! ## Correctness of the modular inverse -/

theorem xgcdFuel_eq (fuel : ℕ) : ∀ (r : ℕ), r ≤ fuel → ∀ (s t : ℤ) (u : ℕ) (s' t' : ℤ),
    xgcdFuel fuel r s t u s' t' = Nat.xgcdAux r s t u s' t' := by
  induction fuel with
  | zero =>
    intro r hr s t u s' t'
    have hr0 : r = 0 := Nat.le_zero.mp hr
    subst hr0
    simp [xgcdFuel]
  | succ fuel ih =>
    intro r hr s t u s' t'
    cases r with
    | zero => simp [xgcdFuel]
    | succ r =>
      rw [xgcdFuel, Nat.xgcdAux_rec (Nat.succ_pos r)]
      exact ih _ (by have h2 : u % (r + 1) < r + 1 := Nat.mod_lt u (by omega); omega) _ _ _ _ _

theorem modInverse_some {x m y : ℤ} (hm : 0 < m) (h : modInverse x m = some y) :
    x * y % m = 1 % m ∧ 0 ≤ y ∧ y < m := by
  simp only [modInverse] at h
  split at h
  case isTrue hg =>
    obtain rfl : _ = y := Option.some_injective _ h
    exact ⟨hg, Int.emod_nonneg _ (ne_of_gt hm), Int.emod_lt_of_pos _ hm⟩
  case isFalse hg => exact absurd h (by simp)

theorem modInverse_prime {N : ℕ} (hN : N.Prime) {x : ℤ} (hx : ¬ ((N : ℤ) ∣ x)) :
    ∃ y : ℤ, modInverse x (N : ℤ) = some y := by
  have hNpos : (0 : ℤ) < N := Int.natCast_pos.mpr hN.pos
  set a : ℕ := (x % (N : ℤ)).toNat with ha
  have hxa : ((a : ℕ) : ℤ) = x % (N : ℤ) :=
    Int.toNat_of_nonneg (Int.emod_nonneg x (ne_of_gt hNpos))
  have haN : a < N := by
    have := Int.emod_lt_of_pos x hNpos
    omega
  have hnd : ¬ N ∣ a := by
    intro hdvd
    have ha0 : a = 0 := Nat.eq_zero_of_dvd_of_lt hdvd haN
    have hz : x % (N : ℤ) = 0 := by omega
    exact hx (Int.dvd_of_emod_eq_zero hz)
  have hcop : Nat.gcd a N = 1 := Nat.coprime_comm.mp (hN.coprime_iff_not_dvd.mpr hnd)
  have hbez : (1 : ℤ) = a * Nat.gcdA a N + N * Nat.gcdB a N := by
    have hb := Nat.gcd_eq_gcd_ab a N
    rw [hcop] at hb
    exact_mod_cast hb
  have htoNat : ((N : ℤ)).toNat = N := Int.toNat_natCast N
  have hfuel : (xgcdFuel a a 1 0 ((N : ℤ)).toNat 0 1).2.1 = Nat.gcdA a N := by
    rw [htoNat, xgcdFuel_eq a a le_rfl]
    rfl
  have hxmod : x ≡ (a : ℤ) [ZMOD (N : ℤ)] := by
    rw [hxa]
    exact (Int.mod_modEq x _).symm
  have hymod : Nat.gcdA a N % (N : ℤ) ≡ Nat.gcdA a N [ZMOD (N : ℤ)] := Int.mod_modEq _ _
  have hfin : (a : ℤ) * Nat.gcdA a N ≡ 1 [ZMOD (N : ℤ)] := by
    rw [Int.modEq_iff_dvd]
    exact ⟨Nat.gcdB a N, by linarith⟩
  have hmod : x * ((xgcdFuel a a 1 0 ((N : ℤ)).toNat 0 1).2.1 % (N : ℤ)) ≡ 1 [ZMOD (N : ℤ)] := by
    rw [hfuel]
    exact (hxmod.mul hymod).trans hfin
  refine ⟨(xgcdFuel a a 1 0 ((N : ℤ)).toNat 0 1).2.1 % (N : ℤ), ?_⟩
  simp only [modInverse, ← ha]
  rw [if_pos hmod.eq]

theorem mcurve_a1 (c : Curve) (N : ℕ) : (mcurve c N).a₁ = 0 := rfl

theorem mcurve_a2 (c : Curve) (N : ℕ) : (mcurve c N).a₂ = 0 := rfl

theorem mcurve_a3 (c : Curve) (N : ℕ) : (mcurve c N).a₃ = 0 := rfl

theorem mcurve_a4 (c : Curve) (N : ℕ) : (mcurve c N).a₄ = (c.a : ZMod N) := rfl

theorem mcurve_a6 (c : Curve) (N : ℕ) : (mcurve c N).a₆ = (c.b : ZMod N) := rfl

theorem cast_emod (N : ℕ) (a : ℤ) : ((a % (N : ℤ) : ℤ) : ZMod N) = (a : ZMod N) := by
  rw [ZMod.intCast_eq_intCast_iff']
  exact Int.emod_emod_of_dvd a dvd_rfl

theorem cast_inj_of_range {N : ℕ} {a b : ℤ} (ha0 : 0 ≤ a) (haN : a < (N : ℤ))
    (hb0 : 0 ≤ b) (hbN : b < (N : ℤ)) (h : (a : ZMod N) = (b : ZMod N)) : a = b := by
  rw [ZMod.intCast_eq_intCast_iff'] at h
  rwa [Int.emod_eq_of_lt ha0 haN, Int.emod_eq_of_lt hb0 hbN] at h

theorem cast_ne_zero_of_range {N : ℕ} {a : ℤ} (ha0 : 0 < a) (haN : a < (N : ℤ)) :
    (a : ZMod N) ≠ 0 := by
  intro h
  have h0 : (a : ZMod N) = ((0 : ℤ) : ZMod N) := by simpa using h
  have hN0 : (0 : ℤ) < (N : ℤ) := lt_trans ha0 haN
  have := cast_inj_of_range ha0.le haN le_rfl hN0 h0
  omega

theorem mcurve_negY (c : Curve) (N : ℕ) (x y : ZMod N) :
    (mcurve c N).negY x y = -y := by
  simp [WeierstrassCurve.Affine.negY, mcurve_a1, mcurve_a3]

theorem equation_of_onCurve {c : Curve} {N : ℕ} (hp : c.p = (N : ℤ)) {x y : ℤ}
    (hxy : onCurve c x y) :
    (mcurve c N).Equation (x : ZMod N) (y : ZMod N) := by
  obtain ⟨-, -, -, -, heq⟩ := hxy
  rw [hp] at heq
  have hcast : (((y ^ 2 - (x ^ 3 + c.a * x + c.b)) % (N : ℤ) : ℤ) : ZMod N) = 0 := by
    rw [heq]; exact Int.cast_zero
  rw [cast_emod] at hcast
  push_cast at hcast
  rw [WeierstrassCurve.Affine.equation_iff]
  rw [mcurve_a1, mcurve_a2, mcurve_a3, mcurve_a4, mcurve_a6]
  linear_combination hcast

theorem onCurve_of_equation {c : Curve} {N : ℕ} (hp : c.p = (N : ℤ)) {x y : ℤ}
    (hx0 : 0 ≤ x) (hxN : x < c.p) (hy0 : 0 ≤ y) (hyN : y < c.p)
    (heq : (mcurve c N).Equation (x : ZMod N) (y : ZMod N)) : onCurve c x y := by
  refine ⟨hx0, hxN, hy0, hyN, ?_⟩
  rw [WeierstrassCurve.Affine.equation_iff] at heq
  rw [mcurve_a1, mcurve_a2, mcurve_a3, mcurve_a4, mcurve_a6] at heq
  have hzero : (((y ^ 2 - (x ^ 3 + c.a * x + c.b)) : ℤ) : ZMod N) = 0 := by
    push_cast
    linear_combination heq
  have hdvd := (ZMod.intCast_zmod_eq_zero_iff_dvd _ N).mp hzero
  rw [hp]
  exact Int.emod_eq_zero_of_dvd hdvd

theorem PtRepr.valid {c : Curve} {N : ℕ} {P : EPoint} {A : MPoint c N}
    (h : PtRepr c N P A) : ValidPoint c P := by
  cases P with
  | none => trivial
  | some xy =>
    obtain ⟨x, y⟩ := xy
    exact h.1

theorem ptRepr_total {c : Curve} {N : ℕ} (hg : GoodCurve c N) {P : EPoint}
    (hP : ValidPoint c P) : ∃ A : MPoint c N, PtRepr c N P A := by
  cases P with
  | none => exact ⟨0, rfl⟩
  | some xy =>
    obtain ⟨x, y⟩ := xy
    have heq := equation_of_onCurve hg.hp hP
    have hns := (mcurve c N).nonsingular_of_Δ_ne_zero heq hg.hdelta
    exact ⟨WeierstrassCurve.Affine.Point.some hns, hP, hns, rfl⟩

theorem ptRepr_inj {c : Curve} {N : ℕ} (hp : c.p = (N : ℤ)) {P Q : EPoint}
    {A : MPoint c N} (hP : PtRepr c N P A) (hQ : PtRepr c N Q A) : P = Q := by
  cases P with
  | none =>
    cases Q with
    | none => rfl
    | some xy =>
      obtain ⟨x, y⟩ := xy
      obtain ⟨-, hns, hA⟩ := hQ
      rw [hP] at hA
      exact absurd hA.symm (WeierstrassCurve.Affine.Point.some_ne_zero hns)
  | some xy =>
    obtain ⟨x, y⟩ := xy
    obtain ⟨hcur1, hns1, hA1⟩ := hP
    cases Q with
    | none =>
      rw [hQ] at hA1
      exact absurd hA1.symm (WeierstrassCurve.Affine.Point.some_ne_zero hns1)
    | some xy' =>
      obtain ⟨x', y'⟩ := xy'
      obtain ⟨hcur2, hns2, hA2⟩ := hQ
      rw [hA1] at hA2
      injection hA2 with hx hy
      obtain ⟨hx0, hxN, hy0, hyN, -⟩ := hcur1
      obtain ⟨hx0', hxN', hy0', hyN', -⟩ := hcur2
      rw [hp] at hxN hyN hxN' hyN'
      have hxx : x = x' := cast_inj_of_range hx0 hxN hx0' hxN' hx
      have hyy : y = y' := cast_inj_of_range hy0 hyN hy0' hyN' hy
      rw [hxx, hyy]

theorem modInverse_cast {N : ℕ} (hN : N.Prime) {x y : ℤ}
    (h : modInverse x (N : ℤ) = some y) :
    (x : ZMod N) * (y : ZMod N) = 1 ∧ (y : ZMod N) = (x : ZMod N)⁻¹ := by
  haveI : Fact N.Prime := ⟨hN⟩
  have hNpos : (0 : ℤ) < N := Int.natCast_pos.mpr hN.pos
  obtain ⟨hmod, -, -⟩ := modInverse_some hNpos h
  have hcast : ((x * y : ℤ) : ZMod N) = ((1 : ℤ) : ZMod N) := by
    rw [ZMod.intCast_eq_intCast_iff']
    exact hmod
  push_cast at hcast
  refine ⟨hcast, ?_⟩
  have hx0 : (x : ZMod N) ≠ 0 := by
    intro h0
    rw [h0, zero_mul] at hcast
    exact one_ne_zero hcast.symm
  calc (y : ZMod N) = ((x : ZMod N)⁻¹ * (x : ZMod N)) * (y : ZMod N) := by
        rw [inv_mul_cancel₀ hx0, one_mul]
    _ = (x : ZMod N)⁻¹ * ((x : ZMod N) * (y : ZMod N)) := by ring
    _ = (x : ZMod N)⁻¹ := by rw [hcast, mul_one]

theorem two_ne_zero_zmod {N : ℕ} (hN : N.Prime) (hodd : N ≠ 2) : (2 : ZMod N) ≠ 0 := by
  intro h
  have h2 : (((2 : ℕ) : ℤ) : ZMod N) = 0 := by exact_mod_cast h
  have hdvd : ((N : ℤ)) ∣ ((2 : ℕ) : ℤ) := (ZMod.intCast_zmod_eq_zero_iff_dvd _ N).mp h2
  have hdvd' : N ∣ 2 := Int.ofNat_dvd.mp hdvd
  exact hodd ((Nat.prime_dvd_prime_iff_eq hN Nat.prime_two).mp hdvd')

theorem excl_negY {c : Curve} {N : ℕ} (hg : GoodCurve c N) {x1 y1 x2 y2 : ℤ}
    (h1 : onCurve c x1 y1) (h2 : onCurve c x2 y2) (hx : x1 = x2)
    (hy : y1 ≠ y2 ∨ y1 = 0) :
    (y1 : ZMod N) = (mcurve c N).negY (x2 : ZMod N) (y2 : ZMod N) := by
  haveI : Fact N.Prime := ⟨hg.hprime⟩
  have he1 := equation_of_onCurve hg.hp h1
  have he2 := equation_of_onCurve hg.hp h2
  have hxc : (x1 : ZMod N) = (x2 : ZMod N) := by rw [hx]
  rcases WeierstrassCurve.Affine.Y_eq_of_X_eq he1 he2 hxc with hyy | hne
  · rcases hy with hne12 | h0
    · obtain ⟨-, -, hy10, hy1N, -⟩ := h1
      obtain ⟨-, -, hy20, hy2N, -⟩ := h2
      rw [hg.hp] at hy1N hy2N
      exact absurd (cast_inj_of_range hy10 hy1N hy20 hy2N hyy) hne12
    · rw [mcurve_negY, ← hyy, h0]
      norm_num
  · exact hne

theorem ne_negY_of_ne_zero {c : Curve} {N : ℕ} (hg : GoodCurve c N) {y1 : ℤ}
    (hy10 : 0 ≤ y1) (hy1N : y1 < c.p) (hy0 : y1 ≠ 0) (x : ZMod N) :
    (y1 : ZMod N) ≠ (mcurve c N).negY x (y1 : ZMod N) := by
  haveI : Fact N.Prime := ⟨hg.hprime⟩
  rw [mcurve_negY]
  intro hcon
  have h2y : (2 : ZMod N) * (y1 : ZMod N) = 0 := by linear_combination hcon
  have hyc : (y1 : ZMod N) ≠ 0 := by
    apply cast_ne_zero_of_range (lt_of_le_of_ne hy10 (Ne.symm hy0))
    rw [← hg.hp]
    exact hy1N
  rcases mul_eq_zero.mp h2y with hz | hz
  · exact two_ne_zero_zmod hg.hprime hg.hodd hz
  · exact hyc hz

theorem point_add_dbl_eq (c : Curve) (x1 y1 s2 : ℤ) (hy0 : y1 ≠ 0)
    (hs2 : modInverse (2 * y1) c.p = some s2) :
    c.point_add (some (x1, y1)) (some (x1, y1)) =
      some (some ((((3 * (x1 ^ 2 % c.p) + c.a) % c.p * s2 % c.p) ^ 2 % c.p - 2 * x1) % c.p,
        (((3 * (x1 ^ 2 % c.p) + c.a) % c.p * s2 % c.p) *
            (x1 - ((((3 * (x1 ^ 2 % c.p) + c.a) % c.p * s2 % c.p) ^ 2 % c.p - 2 * x1) % c.p)) -
          y1) % c.p)) := by
  have hexcl : ¬(x1 = x1 ∧ (y1 ≠ y1 ∨ y1 = 0)) := by
    rintro ⟨-, hc | hc⟩
    · exact hc rfl
    · exact hy0 hc
  dsimp only [Curve.point_add]
  rw [if_neg hexcl, if_pos (⟨rfl, rfl⟩ : x1 = x1 ∧ y1 = y1), hs2]

theorem point_add_distinct_eq (c : Curve) (x1 y1 x2 y2 s2 : ℤ) (hx : x1 ≠ x2)
    (hs2 : modInverse (x2 - x1) c.p = some s2) :
    c.point_add (some (x1, y1)) (some (x2, y2)) =
      some (some ((((y2 - y1) % c.p * s2 % c.p) ^ 2 % c.p - (x1 + x2)) % c.p,
        (((y2 - y1) % c.p * s2 % c.p) *
            (x1 - ((((y2 - y1) % c.p * s2 % c.p) ^ 2 % c.p - (x1 + x2)) % c.p)) -
          y1) % c.p)) := by
  have hexcl : ¬(x1 = x2 ∧ (y1 ≠ y2 ∨ y1 = 0)) := fun hc => hx hc.1
  have heq2 : ¬(x1 = x2 ∧ y1 = y2) := fun hc => hx hc.1
  dsimp only [Curve.point_add]
  rw [if_neg hexcl, if_neg heq2, hs2]

theorem point_add_excl_eq (c : Curve) (x1 y1 x2 y2 : ℤ) (hx : x1 = x2)
    (hy : y1 ≠ y2 ∨ y1 = 0) :
    c.point_add (some (x1, y1)) (some (x2, y2)) = some none := by
  dsimp only [Curve.point_add]
  rw [if_pos (show x1 = x2 ∧ (y1 ≠ y2 ∨ y1 = 0) from ⟨hx, hy⟩)]


/-- The central bridge lemma: on represented points, `Curve.point_add`
is total and computes the Mathlib group law of `mcurve c N`. -/
theorem point_add_repr {c : Curve} {N : ℕ} [Fact N.Prime] (hg : GoodCurve c N) {P Q : EPoint}
    {A B : MPoint c N} (hPA : PtRepr c N P A) (hQB : PtRepr c N Q B) :
    ∃ R : EPoint, c.point_add P Q = some R ∧ PtRepr c N R (A + B) := by
  have hppos : 0 < c.p := by
    rw [hg.hp]
    exact_mod_cast hg.hprime.pos
  cases P with
  | none =>
    refine ⟨Q, ?_, ?_⟩
    · cases Q <;> rfl
    · have hA0 : A = 0 := hPA
      rw [hA0, zero_add]
      exact hQB
  | some p1 =>
    obtain ⟨x1, y1⟩ := p1
    obtain ⟨h1, hns1, hA⟩ := hPA
    cases Q with
    | none =>
      refine ⟨some (x1, y1), rfl, ?_⟩
      have hB0 : B = 0 := hQB
      rw [hB0, add_zero]
      exact ⟨h1, hns1, hA⟩
    | some p2 =>
      obtain ⟨x2, y2⟩ := p2
      obtain ⟨h2, hns2, hB⟩ := hQB
      obtain ⟨hx10, hx1N, hy10, hy1N, -⟩ := id h1
      obtain ⟨hx20, hx2N, hy20, hy2N, -⟩ := id h2
      by_cases hexcl : x1 = x2 ∧ (y1 ≠ y2 ∨ y1 = 0)
      · refine ⟨none, point_add_excl_eq c x1 y1 x2 y2 hexcl.1 hexcl.2, ?_⟩
        show A + B = 0
        rw [hA, hB]
        exact WeierstrassCurve.Affine.Point.add_of_Y_eq
          (by rw [hexcl.1]) (excl_negY hg h1 h2 hexcl.1 hexcl.2)
      · by_cases heqq : x1 = x2 ∧ y1 = y2
        · -- point doubling
          obtain ⟨hxe, hye⟩ := heqq
          subst hxe
          subst hye
          have hy0 : y1 ≠ 0 := fun h0 => hexcl ⟨rfl, Or.inr h0⟩
          have hyne := ne_negY_of_ne_zero hg hy10 hy1N hy0 ((x1 : ZMod N))
          have hnd : ¬ ((N : ℤ) ∣ 2 * y1) := by
            intro hdvd
            have hz : ((2 * y1 : ℤ) : ZMod N) = 0 :=
              (ZMod.intCast_zmod_eq_zero_iff_dvd _ N).mpr hdvd
            push_cast at hz
            rcases mul_eq_zero.mp hz with hzz | hzz
            · exact two_ne_zero_zmod hg.hprime hg.hodd hzz
            · refine cast_ne_zero_of_range (lt_of_le_of_ne hy10 (Ne.symm hy0)) ?_ hzz
              rw [← hg.hp]
              exact hy1N
          obtain ⟨s2, hs2⟩ := modInverse_prime hg.hprime hnd
          have hs2' : modInverse (2 * y1) c.p = some s2 := by
            rw [hg.hp]
            exact hs2
          have hs2b : (2 : ZMod N) * (y1 : ZMod N) * (s2 : ZMod N) = 1 := by
            have hmu := (modInverse_cast hg.hprime hs2).1
            push_cast at hmu
            linear_combination hmu
          have hinv : (s2 : ZMod N) = ((2 : ZMod N) * (y1 : ZMod N))⁻¹ :=
            eq_inv_of_mul_eq_one_left (by linear_combination hs2b)
          have hLval : (mcurve c N).slope (x1 : ZMod N) (x1 : ZMod N) (y1 : ZMod N) (y1 : ZMod N)
              = (3 * (x1 : ZMod N) ^ 2 + (c.a : ZMod N)) * ((2 : ZMod N) * (y1 : ZMod N))⁻¹ := by
            rw [WeierstrassCurve.Affine.slope_of_Y_ne rfl hyne]
            rw [mcurve_negY, mcurve_a1, mcurve_a2, mcurve_a4]
            rw [div_eq_mul_inv]
            congr 1
            · ring
            · congr 1
              ring
          have hpa := point_add_dbl_eq c x1 y1 s2 hy0 hs2'
          set S : ℤ := (3 * (x1 ^ 2 % c.p) + c.a) % c.p * s2 % c.p with hS
          set RX : ℤ := (S ^ 2 % c.p - 2 * x1) % c.p with hRX
          set RY : ℤ := (S * (x1 - RX) - y1) % c.p with hRY
          have hSb : (S : ZMod N) = (3 * (x1 : ZMod N) ^ 2 + (c.a : ZMod N)) * (s2 : ZMod N) := by
            rw [hS, hg.hp]
            push_cast [cast_emod]
            ring
          have hSslope : (S : ZMod N)
              = (mcurve c N).slope (x1 : ZMod N) (x1 : ZMod N) (y1 : ZMod N) (y1 : ZMod N) := by
            rw [hSb, hinv, ← hLval]
          have hrxcast : ((RX : ℤ) : ZMod N)
              = (mcurve c N).addX (x1 : ZMod N) (x1 : ZMod N)
                  ((mcurve c N).slope (x1 : ZMod N) (x1 : ZMod N) (y1 : ZMod N) (y1 : ZMod N)) := by
            rw [hRX, hg.hp]
            push_cast [cast_emod]
            rw [hSslope]
            rw [WeierstrassCurve.Affine.addX, mcurve_a1, mcurve_a2]
            ring
          have hrycast : ((RY : ℤ) : ZMod N)
              = (mcurve c N).addY (x1 : ZMod N) (x1 : ZMod N) (y1 : ZMod N)
                  ((mcurve c N).slope (x1 : ZMod N) (x1 : ZMod N) (y1 : ZMod N) (y1 : ZMod N)) := by
            rw [hRY, hg.hp]
            push_cast [cast_emod]
            rw [hSslope, hrxcast]
            rw [WeierstrassCurve.Affine.addY, WeierstrassCurve.Affine.negAddY, mcurve_negY]
            ring
          have hns3 := WeierstrassCurve.Affine.nonsingular_add hns1 hns2 (fun _ => hyne)
          have hadd : A + B = WeierstrassCurve.Affine.Point.some hns3 := by
            rw [hA, hB]
            exact WeierstrassCurve.Affine.Point.add_of_Y_ne hyne
          refine ⟨some (RX, RY), hpa, ?_, ?_⟩
          · -- onCurve c RX RY
            refine onCurve_of_equation hg.hp ?_ ?_ ?_ ?_ ?_
            · rw [hRX]; exact Int.emod_nonneg _ (ne_of_gt hppos)
            · rw [hRX]; exact Int.emod_lt_of_pos _ hppos
            · rw [hRY]; exact Int.emod_nonneg _ (ne_of_gt hppos)
            · rw [hRY]; exact Int.emod_lt_of_pos _ hppos
            · rw [hrxcast, hrycast]
              exact hns3.1
          · rw [hrxcast, hrycast, hadd]
            exact ⟨hns3, rfl⟩
        · -- distinct points
          have hxne : x1 ≠ x2 := by
            intro hxe
            have hy12 : y1 = y2 := by
              by_contra hne
              exact hexcl ⟨hxe, Or.inl hne⟩
            exact heqq ⟨hxe, hy12⟩
          have hxnec : (x1 : ZMod N) ≠ (x2 : ZMod N) := by
            intro hc
            refine hxne (cast_inj_of_range hx10 ?_ hx20 ?_ hc)
            · rw [← hg.hp]; exact hx1N
            · rw [← hg.hp]; exact hx2N
          have hnd : ¬ ((N : ℤ) ∣ (x2 - x1)) := by
            intro hdvd
            have hz : ((x2 - x1 : ℤ) : ZMod N) = 0 :=
              (ZMod.intCast_zmod_eq_zero_iff_dvd _ N).mpr hdvd
            push_cast at hz
            exact hxnec (by linear_combination - hz)
          obtain ⟨s2, hs2⟩ := modInverse_prime hg.hprime hnd
          have hs2' : modInverse (x2 - x1) c.p = some s2 := by
            rw [hg.hp]
            exact hs2
          have hs2b : ((x2 : ZMod N) - (x1 : ZMod N)) * (s2 : ZMod N) = 1 := by
            have hmu := (modInverse_cast hg.hprime hs2).1
            push_cast at hmu
            linear_combination hmu
          have hinv : (s2 : ZMod N) = ((x2 : ZMod N) - (x1 : ZMod N))⁻¹ :=
            eq_inv_of_mul_eq_one_left (by linear_combination hs2b)
          have hLval : (mcurve c N).slope (x1 : ZMod N) (x2 : ZMod N) (y1 : ZMod N) (y2 : ZMod N)
              = ((y2 : ZMod N) - (y1 : ZMod N)) * ((x2 : ZMod N) - (x1 : ZMod N))⁻¹ := by
            rw [WeierstrassCurve.Affine.slope_of_X_ne hxnec]
            rw [div_eq_mul_inv]
            rw [show (x1 : ZMod N) - (x2 : ZMod N) = -((x2 : ZMod N) - (x1 : ZMod N)) by ring]
            rw [inv_neg]
            ring
          have hpa := point_add_distinct_eq c x1 y1 x2 y2 s2 hxne hs2'
          set S : ℤ := (y2 - y1) % c.p * s2 % c.p with hS
          set RX : ℤ := (S ^ 2 % c.p - (x1 + x2)) % c.p with hRX
          set RY : ℤ := (S * (x1 - RX) - y1) % c.p with hRY
          have hSb : (S : ZMod N) = ((y2 : ZMod N) - (y1 : ZMod N)) * (s2 : ZMod N) := by
            rw [hS, hg.hp]
            push_cast [cast_emod]
            ring
          have hSslope : (S : ZMod N)
              = (mcurve c N).slope (x1 : ZMod N) (x2 : ZMod N) (y1 : ZMod N) (y2 : ZMod N) := by
            rw [hSb, hinv, ← hLval]
          have hrxcast : ((RX : ℤ) : ZMod N)
              = (mcurve c N).addX (x1 : ZMod N) (x2 : ZMod N)
                  ((mcurve c N).slope (x1 : ZMod N) (x2 : ZMod N) (y1 : ZMod N) (y2 : ZMod N)) := by
            rw [hRX, hg.hp]
            push_cast [cast_emod]
            rw [hSslope]
            rw [WeierstrassCurve.Affine.addX, mcurve_a1, mcurve_a2]
            ring
          have hrycast : ((RY : ℤ) : ZMod N)
              = (mcurve c N).addY (x1 : ZMod N) (x2 : ZMod N) (y1 : ZMod N)
                  ((mcurve c N).slope (x1 : ZMod N) (x2 : ZMod N) (y1 : ZMod N) (y2 : ZMod N)) := by
            rw [hRY, hg.hp]
            push_cast [cast_emod]
            rw [hSslope, hrxcast]
            rw [WeierstrassCurve.Affine.addY, WeierstrassCurve.Affine.negAddY, mcurve_negY]
            ring
          have hns3 := WeierstrassCurve.Affine.nonsingular_add hns1 hns2
            (fun hc => absurd hc hxnec)
          have hadd : A + B = WeierstrassCurve.Affine.Point.some hns3 := by
            rw [hA, hB]
            exact WeierstrassCurve.Affine.Point.add_of_X_ne hxnec
          refine ⟨some (RX, RY), hpa, ?_, ?_⟩
          · refine onCurve_of_equation hg.hp ?_ ?_ ?_ ?_ ?_
            · rw [hRX]; exact Int.emod_nonneg _ (ne_of_gt hppos)
            · rw [hRX]; exact Int.emod_lt_of_pos _ hppos
            · rw [hRY]; exact Int.emod_nonneg _ (ne_of_gt hppos)
            · rw [hRY]; exact Int.emod_lt_of_pos _ hppos
            · rw [hrxcast, hrycast]
              exact hns3.1
          · rw [hrxcast, hrycast, hadd]
            exact ⟨hns3, rfl⟩

/-- Loop invariant of the double-and-add loop: starting from accumulator `r`
and current point `a`, the loop computes `r + k • a` in the group. -/
theorem point_mul_loop_repr {c : Curve} {N : ℕ} [Fact N.Prime] (hg : GoodCurve c N) :
    ∀ (fuel k : ℕ), k ≤ fuel → ∀ {r a : EPoint} {A B : MPoint c N},
      PtRepr c N r A → PtRepr c N a B →
      ∃ R : EPoint, c.point_mul_loop fuel k r a = some R ∧ PtRepr c N R (A + k • B) := by
  intro fuel
  induction fuel with
  | zero =>
    intro k hk r a A B hr ha
    have hk0 : k = 0 := Nat.le_zero.mp hk
    subst hk0
    exact ⟨r, rfl, by rw [zero_nsmul, add_zero]; exact hr⟩
  | succ fuel ih =>
    intro k hk r a A B hr ha
    cases k with
    | zero => exact ⟨r, rfl, by rw [zero_nsmul, add_zero]; exact hr⟩
    | succ k =>
      obtain ⟨r2, hr2eq, hr2⟩ : ∃ r2, (if (k + 1) % 2 = 1 then c.point_add r a else some r)
          = some r2 ∧ PtRepr c N r2 (A + ((k + 1) % 2) • B) := by
        by_cases hpar : (k + 1) % 2 = 1
        · rw [if_pos hpar, hpar]
          obtain ⟨R, hR, hRr⟩ := point_add_repr hg hr ha
          exact ⟨R, hR, by rw [one_nsmul]; exact hRr⟩
        · rw [if_neg hpar]
          have h0 : (k + 1) % 2 = 0 := by omega
          rw [h0]
          exact ⟨r, rfl, by rw [zero_nsmul, add_zero]; exact hr⟩
      obtain ⟨a2, ha2eq, ha2⟩ := point_add_repr hg ha ha
      have hstep : c.point_mul_loop (fuel + 1) (k + 1) r a
          = c.point_mul_loop fuel ((k + 1) / 2) r2 a2 := by
        dsimp only [Curve.point_mul_loop]
        rw [hr2eq, ha2eq]
      obtain ⟨R, hR, hRr⟩ := ih ((k + 1) / 2) (by omega) hr2 ha2
      refine ⟨R, by rw [hstep]; exact hR, ?_⟩
      have hsum : ((k + 1) % 2) • B + ((k + 1) / 2) • (B + B) = (k + 1) • B := by
        rw [← two_smul ℕ B, smul_smul, ← add_smul, Nat.mod_add_div' (k + 1) 2]
      rw [add_assoc, hsum] at hRr
      exact hRr

/-- `point_mul k` computes `k • A` in the group on represented points. -/
theorem point_mul_repr {c : Curve} {N : ℕ} [Fact N.Prime] (hg : GoodCurve c N)
    {P : EPoint} {A : MPoint c N} (hPA : PtRepr c N P A) (k : ℕ) :
    ∃ R : EPoint, c.point_mul k P = some R ∧ PtRepr c N R (k • A) := by
  obtain ⟨R, hR, hRr⟩ := point_mul_loop_repr hg k k le_rfl
    (show PtRepr c N none 0 from rfl) hPA
  rw [zero_add] at hRr
  exact ⟨R, hR, hRr⟩

/-- `iter_add k` computes `k • A` in the group on represented points. -/
theorem iter_add_repr {c : Curve} {N : ℕ} [Fact N.Prime] (hg : GoodCurve c N)
    {P : EPoint} {A : MPoint c N} (hPA : PtRepr c N P A) :
    ∀ k : ℕ, ∃ R : EPoint, c.iter_add k P = some R ∧ PtRepr c N R (k • A) := by
  intro k
  induction k with
  | zero =>
    refine ⟨none, rfl, ?_⟩
    show (0 • A : MPoint c N) = 0
    exact zero_nsmul A
  | succ k ih =>
    obtain ⟨R, hR, hRr⟩ := ih
    obtain ⟨R2, hR2, hR2r⟩ := point_add_repr hg hRr hPA
    refine ⟨R2, ?_, ?_⟩
    · dsimp only [Curve.iter_add]
      rw [hR]
      exact hR2
    · rw [succ_nsmul]
      exact hR2r

/-! ## The verified claims -/

/-- `GoodCurve` holds for the `toy_curve` of src/ec.py with its prime 17. -/
theorem toy_good : GoodCurve toy_curve 17 :=
  ⟨by norm_num, by decide, rfl, by decide⟩

/-- C6: infinity is a two-sided identity for `point_add`: for every point `p`
(infinity included), `point_add p infinity = p` and
`point_add infinity p = p`. -/
theorem claim_C6_identity (c : Curve) (P : EPoint) :
    c.point_add P none = some P ∧ c.point_add none P = some P := by
  cases P with
  | none => exact ⟨rfl, rfl⟩
  | some pr => exact ⟨rfl, rfl⟩

/-- C4: for on-curve points not caught by the exclusion checks of
`point_add`, the two modular inverses inside `point_add` are defined, so the
addition never raises a no-inverse error (the result is `some _`, never the
error value `none`). -/
theorem claim_C4_no_inverse_error (c : Curve) (N : ℕ) (hg : GoodCurve c N)
    (x1 y1 x2 y2 : ℤ) (h1 : onCurve c x1 y1) (h2 : onCurve c x2 y2)
    (_hexcl : ¬(x1 = x2 ∧ (y1 ≠ y2 ∨ y1 = 0))) :
    (c.point_add (some (x1, y1)) (some (x2, y2))).isSome := by
  haveI : Fact N.Prime := ⟨hg.hprime⟩
  obtain ⟨A, hA⟩ := ptRepr_total hg (show ValidPoint c (some (x1, y1)) from h1)
  obtain ⟨B, hB⟩ := ptRepr_total hg (show ValidPoint c (some (x2, y2)) from h2)
  obtain ⟨R, hR, -⟩ := point_add_repr hg hA hB
  rw [hR]
  rfl

/-- C4 witness: doubling the toy-curve base point (5, 1) succeeds. -/
theorem claim_C4_witness :
    (toy_curve.point_add (some (5, 1)) (some (5, 1))).isSome :=
  claim_C4_no_inverse_error toy_curve 17 toy_good 5 1 5 1 (by decide) (by decide)
    (by decide)

/-- C5: group closure with reduced coordinates: adding two valid points
(infinity or reduced on-curve) yields a valid point: infinity or an on-curve
point with both coordinates in `[0, c.p)`. -/
theorem claim_C5_closure (c : Curve) (N : ℕ) (hg : GoodCurve c N) (P Q : EPoint)
    (hP : ValidPoint c P) (hQ : ValidPoint c Q) :
    ∃ R : EPoint, c.point_add P Q = some R ∧ ValidPoint c R := by
  haveI : Fact N.Prime := ⟨hg.hprime⟩
  obtain ⟨A, hA⟩ := ptRepr_total hg hP
  obtain ⟨B, hB⟩ := ptRepr_total hg hQ
  obtain ⟨R, hR, hRr⟩ := point_add_repr hg hA hB
  exact ⟨R, hR, hRr.valid⟩

/-- C5 witness: adding (5, 1) and (6, 3) on the toy curve. -/
theorem claim_C5_witness :
    ∃ R : EPoint, toy_curve.point_add (some (5, 1)) (some (6, 3)) = some R ∧
      ValidPoint toy_curve R :=
  claim_C5_closure toy_curve 17 toy_good (some (5, 1)) (some (6, 3)) (by decide)
    (by decide)

/-- C10: `point_add` is commutative on valid points: infinity or reduced
on-curve inputs may be given in either order with the same result. -/
theorem claim_C10_point_add_comm (c : Curve) (N : ℕ) (hg : GoodCurve c N)
    (P Q : EPoint) (hP : ValidPoint c P) (hQ : ValidPoint c Q) :
    c.point_add P Q = c.point_add Q P := by
  haveI : Fact N.Prime := ⟨hg.hprime⟩
  obtain ⟨A, hA⟩ := ptRepr_total hg hP
  obtain ⟨B, hB⟩ := ptRepr_total hg hQ
  obtain ⟨R, hR, hRr⟩ := point_add_repr hg hA hB
  obtain ⟨R', hR', hRr'⟩ := point_add_repr hg hB hA
  rw [hR, hR']
  rw [add_comm] at hRr'
  rw [ptRepr_inj hg.hp hRr hRr']

/-- C10 witness: commutativity at the toy-curve points (5, 1) and (0, 6). -/
theorem claim_C10_witness :
    toy_curve.point_add (some (5, 1)) (some (0, 6)) =
      toy_curve.point_add (some (0, 6)) (some (5, 1)) :=
  claim_C10_point_add_comm toy_curve 17 toy_good (some (5, 1)) (some (0, 6))
    (by decide) (by decide)

/-- C7: additive inverses and 2-torsion: for an on-curve point,
adding its negation `(x, -y mod p)` yields infinity; and whenever
`p.x = q.x` with (`p.y ≠ q.y` or `p.y = 0`), `point_add` returns infinity. -/
theorem claim_C7_additive_inverse (c : Curve) (N : ℕ) (hg : GoodCurve c N) :
    (∀ x y : ℤ, onCurve c x y →
       c.point_add (some (x, y)) (some (negate c (x, y))) = some none) ∧
    (∀ x1 y1 x2 y2 : ℤ, x1 = x2 → (y1 ≠ y2 ∨ y1 = 0) →
       c.point_add (some (x1, y1)) (some (x2, y2)) = some none) := by
  constructor
  · intro x y hxy
    obtain ⟨hx0, hxN, hy0, hyN, -⟩ := hxy
    refine point_add_excl_eq c x y x ((-y) % c.p) rfl ?_
    by_cases h0 : y = 0
    · exact Or.inr h0
    · refine Or.inl ?_
      have hppos : 0 < c.p := by
        rw [hg.hp]
        exact_mod_cast hg.hprime.pos
      have hneg : (-y) % c.p = c.p - y := by
        rw [show -y = (c.p - y) + c.p * (-1) by ring, Int.add_mul_emod_self_left]
        exact Int.emod_eq_of_lt (by omega) (by omega)
      rw [hneg]
      intro hcon
      obtain ⟨mm, hmm⟩ := hg.hprime.odd_of_ne_two hg.hodd
      have h2y : 2 * y = c.p := by omega
      rw [hg.hp, hmm] at h2y
      push_cast at h2y
      omega
  · intro x1 y1 x2 y2 hx hy
    exact point_add_excl_eq c x1 y1 x2 y2 hx hy

/-- C7 witness: on the toy curve, (5, 1) plus its negation (5, 16) is
infinity, and two points sharing `x` with distinct `y` add to infinity. -/
theorem claim_C7_witness :
    toy_curve.point_add (some (5, 1)) (some (negate toy_curve (5, 1))) = some none ∧
    toy_curve.point_add (some (7, 2)) (some (7, 5)) = some none :=
  ⟨(claim_C7_additive_inverse toy_curve 17 toy_good).1 5 1 (by decide),
   (claim_C7_additive_inverse toy_curve 17 toy_good).2 7 2 7 5 rfl (Or.inl (by decide))⟩

/-- C2: `point_mul` (LSB-first double-and-add with accumulator initialised to
infinity) computes the `k`-fold `point_add`-sum of its input, and in
particular `point_mul 0 p = infinity` and `point_mul 1 p = p`, for every `p`
that is infinity or a valid on-curve point. -/
theorem claim_C2_point_mul_iter_add (c : Curve) (N : ℕ) (hg : GoodCurve c N)
    (P : EPoint) (hP : ValidPoint c P) (k : ℕ) :
    c.point_mul k P = c.iter_add k P ∧ c.point_mul 0 P = some none ∧
      c.point_mul 1 P = some P := by
  haveI : Fact N.Prime := ⟨hg.hprime⟩
  obtain ⟨A, hPA⟩ := ptRepr_total hg hP
  refine ⟨?_, rfl, ?_⟩
  · obtain ⟨R, hR, hRr⟩ := point_mul_repr hg hPA k
    obtain ⟨R', hR', hRr'⟩ := iter_add_repr hg hPA k
    rw [hR, hR', ptRepr_inj hg.hp hRr hRr']
  · obtain ⟨R, hR, hRr⟩ := point_mul_repr hg hPA 1
    rw [one_nsmul] at hRr
    rw [hR, ptRepr_inj hg.hp hRr hPA]

/-- C2 witness: the toy-curve base point with `k = 5`. -/
theorem claim_C2_witness :
    toy_curve.point_mul 5 (some (5, 1)) = toy_curve.iter_add 5 (some (5, 1)) ∧
    toy_curve.point_mul 0 (some (5, 1)) = some none ∧
    toy_curve.point_mul 1 (some (5, 1)) = some (some (5, 1)) :=
  claim_C2_point_mul_iter_add toy_curve 17 toy_good (some (5, 1)) (by decide) 5

/-- C1: key-exchange correctness.  ECDH: for key pairs `(a, A)`, `(b, B)` on
the same curve with `A = point_mul a G`, `B = point_mul b G` and scalars in
`[1, n-1]`, both sides compute the same shared point:
`point_mul a B = point_mul b A`.  DH: for all non-negative exponents,
`pow (pow g b p) a p = pow (pow g a p) b p`. -/
theorem claim_C1_key_exchange_correctness :
    (∀ (c : Curve) (N : ℕ), GoodCurve c N → onCurve c c.G.1 c.G.2 →
       ∀ a b : ℕ, 1 ≤ a → (a : ℤ) ≤ c.n - 1 → 1 ≤ b → (b : ℤ) ≤ c.n - 1 →
       ∀ A B : EPoint, c.point_mul a (some c.G) = some A →
         c.point_mul b (some c.G) = some B →
         c.point_mul a B = c.point_mul b A) ∧
    (∀ (g p : ℤ) (a b : ℕ), 0 < p →
       pypow (pypow g b p) a p = pypow (pypow g a p) b p) := by
  constructor
  · intro c N hg hG a b _ha1 _han _hb1 _hbn A B hA hB
    haveI : Fact N.Prime := ⟨hg.hprime⟩
    have hGv : ValidPoint c (some c.G) := hG
    obtain ⟨AG, hAG⟩ := ptRepr_total hg hGv
    obtain ⟨A', hA', hA'r⟩ := point_mul_repr hg hAG a
    rw [hA] at hA'
    injection hA' with hAA
    rw [← hAA] at hA'r
    obtain ⟨B', hB', hB'r⟩ := point_mul_repr hg hAG b
    rw [hB] at hB'
    injection hB' with hBB
    rw [← hBB] at hB'r
    obtain ⟨R1, hR1, hR1r⟩ := point_mul_repr hg hB'r a
    obtain ⟨R2, hR2, hR2r⟩ := point_mul_repr hg hA'r b
    rw [hR1, hR2]
    congr 1
    refine ptRepr_inj hg.hp hR1r ?_
    have hcomm : b • a • AG = a • b • AG := by
      rw [smul_smul, smul_smul, Nat.mul_comm]
    rw [hcomm] at hR2r
    exact hR2r
  · intro g p a b _hp
    have key : ∀ e f : ℕ, pypow (pypow g e p) f p = g ^ (e * f) % p := by
      intro e f
      show (g ^ e % p) ^ f % p = g ^ (e * f) % p
      have h1 : (g ^ e % p) ^ f ≡ (g ^ e) ^ f [ZMOD p] := (Int.mod_modEq (g ^ e) p).pow f
      rw [pow_mul]
      exact h1
    rw [key, key, Nat.mul_comm]

/-- C1 witness: the toy curve with scalars 2 and 3, and the spec's DH fixture
`p = 23`, `g = 5`, exponents 6 and 15. -/
theorem claim_C1_witness :
    toy_curve.point_mul 2 (some (10, 6)) = toy_curve.point_mul 3 (some (6, 3)) ∧
    pypow (pypow 5 15 23) 6 23 = pypow (pypow 5 6 23) 15 23 :=
  ⟨claim_C1_key_exchange_correctness.1 toy_curve 17 toy_good (by decide) 2 3
      (by decide) (by decide) (by decide) (by decide) (some (6, 3)) (some (10, 6))
      (by decide) (by decide),
   claim_C1_key_exchange_correctness.2 5 23 6 15 (by decide)⟩

/-- C8: composition of scalar multiplication modulo the order parameter `n`:
if `n • P` is infinity (the spec's `CurveParams` invariant that `n` is the
order of the relevant subgroup), then
`point_mul k (point_mul m P) = point_mul ((k * m) % n) P`. -/
theorem claim_C8_scalar_mul_composition (c : Curve) (N : ℕ) (hg : GoodCurve c N)
    (P : EPoint) (hP : ValidPoint c P)
    (hn : c.point_mul c.n.toNat P = some none) (k m : ℕ) :
    ∃ Q : EPoint, c.point_mul m P = some Q ∧
      c.point_mul k Q = c.point_mul ((k * m) % c.n.toNat) P := by
  haveI : Fact N.Prime := ⟨hg.hprime⟩
  obtain ⟨A, hPA⟩ := ptRepr_total hg hP
  have hord : c.n.toNat • A = 0 := by
    obtain ⟨R, hR, hRr⟩ := point_mul_repr hg hPA c.n.toNat
    rw [hn] at hR
    injection hR with hR'
    rw [← hR'] at hRr
    exact hRr
  obtain ⟨Q, hQ, hQr⟩ := point_mul_repr hg hPA m
  refine ⟨Q, hQ, ?_⟩
  obtain ⟨R1, hR1, hR1r⟩ := point_mul_repr hg hQr k
  obtain ⟨R2, hR2, hR2r⟩ := point_mul_repr hg hPA ((k * m) % c.n.toNat)
  rw [hR1, hR2]
  congr 1
  refine ptRepr_inj hg.hp hR1r ?_
  have hsm : ((k * m) % c.n.toNat) • A = k • m • A := by
    conv_rhs => rw [smul_smul]
    conv_rhs => rw [← Nat.mod_add_div (k * m) c.n.toNat]
    rw [add_smul, Nat.mul_comm c.n.toNat ((k * m) / c.n.toNat), mul_smul, hord]
    rw [show ((k * m / c.n.toNat) • (0 : MPoint c N)) = 0 from nsmul_zero _, add_zero]
  rw [hsm] at hR2r
  exact hR2r

/-- C8 witness: on the toy curve (order 19), `k = 3`, `m = 5`. -/
theorem claim_C8_witness :
    ∃ Q : EPoint, toy_curve.point_mul 5 (some (5, 1)) = some Q ∧
      toy_curve.point_mul 3 Q =
        toy_curve.point_mul ((3 * 5) % toy_curve.n.toNat) (some (5, 1)) :=
  claim_C8_scalar_mul_composition toy_curve 17 toy_good (some (5, 1)) (by decide)
    (by decide) 3 5

/-- C3 counterexample: in DH mode the code performs no range check on the
decoded peer integer.  With `p = 23`, `g = 5`, private exponent 6 and the
out-of-range peer value 25 ≥ 23, the exchange does not abort with
`MalformedWireValue`; it succeeds and produces all three artifacts. -/
theorem claim_C3_counterexample :
    (23 : ℤ) ≤ 25 ∧
    dh_exchange 23 5 6 25 ≠ Except.error ExchangeError.MalformedWireValue ∧
    dh_exchange 23 5 6 25 = Except.ok (6, 8, 18) :=
  ⟨by decide, fun hcon => Except.noConfusion hcon, rfl⟩

/-- C3 (amended): in ECDH mode a decoded point that is not on the curve
aborts the exchange with `MalformedWireValue` before any artifact is
produced; in DH mode the code performs no range check, so every decoded
integer — also one `≥ p` — is accepted and the three artifacts are always
produced. -/
theorem claim_C3_amended :
    (∀ (c : Curve) (priv : ℕ) (pub : EPoint) (wx wy : ℤ), ¬ onCurve c wx wy →
       ecdh_exchange c priv pub wx wy = Except.error ExchangeError.MalformedWireValue) ∧
    (∀ (p g : ℤ) (priv : ℕ) (peer : ℤ),
       dh_exchange p g priv peer = Except.ok (priv, pypow g priv p, pypow peer priv p)) := by
  constructor
  · intro c priv pub wx wy hbad
    unfold ecdh_exchange Curve.decode_pub
    rw [if_neg hbad]
  · intro p g priv peer
    rfl

/-- C3 witness: the off-curve point (0, 1) on the toy curve aborts the ECDH
exchange; the DH exchange accepts the out-of-range peer value 25. -/
theorem claim_C3_witness :
    (¬ onCurve toy_curve 0 1) ∧
    ecdh_exchange toy_curve 3 none 0 1 = Except.error ExchangeError.MalformedWireValue ∧
    dh_exchange 23 5 6 25 = Except.ok (6, pypow 5 6 23, pypow 25 6 23) :=
  ⟨by decide, claim_C3_amended.1 toy_curve 3 none 0 1 (by decide),
   claim_C3_amended.2 23 5 6 25⟩

/-- C9: the DH regression fixture of spec section 8: with `p = 23`, `g = 5`,
`priv_A = 6`, `priv_B = 15`: `pub_A = 8`, `pub_B = 19`, both shared values
equal 2, the two exchanges produce exactly these artifacts, and the string
fed to SHA-256 is the literal `"2"` (shortest hex of 2, no radix prefix). -/
theorem claim_C9_dh_fixture :
    pypow 5 6 23 = 8 ∧ pypow 5 15 23 = 19 ∧ pypow 19 6 23 = 2 ∧ pypow 8 15 23 = 2 ∧
    dh_exchange 23 5 6 19 = Except.ok (6, 8, 2) ∧
    dh_exchange 23 5 15 8 = Except.ok (15, 19, 2) ∧
    dh_hash_input 2 = "2" :=
  ⟨by decide, by decide, by decide, by decide, rfl, rfl, by decide⟩
